import Mathlib

/-!
Verification of the branch classifier in `challenge.py` (a solution to the
Shopify back-end challenge).  The Python functions `find_parents`,
`get_children` (with its inner depth-first while-loop), `_get_max_depth`
and `validate_parents` are embedded as executable Lean functions.
Unbounded iteration and recursion in Python are modelled with an explicit
fuel parameter: `RunError.outOfFuel` marks fuel exhaustion, and a Python
`KeyError` raised by a dictionary access `menus[x]` is modelled as
`RunError.unknownNode x`.
-/

namespace Challenge

/-- A menu record: `id`, optional `parent_id`, and `child_ids`, the three
fields of the JSON menu objects consumed by `challenge.py`. -/
structure Menu where
  id : Nat
  parent_id : Option Nat
  child_ids : List Nat
deriving Repr, DecidableEq

/-- The menu dictionary built by `get_api_data`: an association list from
menu id to menu record, modelling `{menu['id']: menu for menu in menus}`. -/
abbrev Store := List (Nat × Menu)

/-- Dictionary access `menus[i]`; `none` corresponds to a Python `KeyError`. -/
def lookupMenu (menus : Store) (i : Nat) : Option Menu :=
  match menus.find? (fun p => p.1 == i) with
  | some p => some p.2
  | none => none

/-- `find_parents`: the menus that have no `parent_id` key. -/
def find_parents (menus : Store) : List Menu :=
  (menus.map (fun p => p.2)).filter (fun m => decide (m.parent_id = none))

/-- Run-time failures of the embedded code: `unknownNode i` models the
`KeyError` raised by `menus[i]` when `i` is absent, and `outOfFuel` marks
exhaustion of the fuel bounding Python's unbounded loops/recursion. -/
inductive RunError where
  | unknownNode (i : Nat)
  | outOfFuel
deriving Repr, DecidableEq

/-- The `while stack:` loop inside `get_children`.  The Lean list `stack`
holds the Python stack with its top (the end popped by `stack.pop()`) at
the head, so Python's `stack.extend(cs)` becomes `cs.reverse ++ stack`.
Python's set difference `set(menus[node]['child_ids']) - visited` is
modelled as an order-preserving filter (iteration order of a Python set
is unspecified; duplicates kept by the filter are harmless since a second
pop of the same id is skipped by the visited check).  `visited` is the
visited set, as a list used only up to membership. -/
def visit_loop (menus : Store) : Nat → List Nat → List Nat → Except RunError (List Nat)
  | 0, _, _ => .error .outOfFuel
  | _ + 1, [], visited => .ok visited
  | fuel + 1, node :: stack, visited =>
    if node ∈ visited then
      visit_loop menus fuel stack visited
    else
      match lookupMenu menus node with
      | none => .error (.unknownNode node)
      | some m =>
        visit_loop menus fuel
          (((m.child_ids.filter (fun c => decide (¬ c ∈ node :: visited))).reverse) ++ stack)
          (node :: visited)

/-- The `for child in children:` loop of `_get_max_depth`, collecting
`_get_max_depth(menus, parent, menus[child]['child_ids'])` for each child
(the dict `depths` is only used for `max(depths.values())`, so the list
of its values in insertion order suffices).  The recursive call of
`_get_max_depth` is passed in as `dep`. -/
def child_depths (menus : Store) (dep : List Nat → Except RunError Nat) :
    List Nat → Except RunError (List Nat)
  | [] => .ok []
  | c :: cs =>
    match lookupMenu menus c with
    | none => .error (.unknownNode c)
    | some m =>
      match dep m.child_ids with
      | .error e => .error e
      | .ok d =>
        match child_depths menus dep cs with
        | .error e => .error e
        | .ok ds => .ok (d :: ds)

/-- `_get_max_depth(menus, parent, children)`: recursive maximum depth.
The Python recursion has no depth bound, so the embedding takes fuel;
one unit of fuel is consumed per recursion level. -/
def get_max_depth (menus : Store) : Nat → Nat → List Nat → Except RunError Nat
  | 0, _, _ => .error .outOfFuel
  | fuel + 1, parent, children =>
    if children = [] then .ok 0
    else if parent ∈ children then .ok 1
    else
      match child_depths menus (fun cc => get_max_depth menus fuel parent cc) children with
      | .error e => .error e
      | .ok ds => .ok (ds.foldl Nat.max 0 + 1)

/-- A branch record as assembled by `get_children`: the dict
`{'root_id': ..., 'children': list(visited), 'max_depth': ...}`. -/
structure Branch where
  root_id : Nat
  children : List Nat
  max_depth : Nat
deriving Repr, DecidableEq

/-- One iteration of the `for parent in parents:` loop of `get_children`:
the depth-first traversal seeded with the parent's children (the Python
list `parent['child_ids']` is pushed in order, so its last element is on
top: head of the reversed list), followed by the branch record built from
`root_id`, the visited set, and `_get_max_depth`. -/
def branch_of (menus : Store) (fuel : Nat) (parent : Menu) : Except RunError Branch :=
  match visit_loop menus fuel parent.child_ids.reverse [] with
  | .error e => .error e
  | .ok visited =>
    match get_max_depth menus fuel parent.id parent.child_ids with
    | .error e => .error e
    | .ok d => .ok ⟨parent.id, visited, d⟩

/-- `get_children(menus, parents)`: the branch records, in parent order;
an exception raised while processing one parent aborts the whole call. -/
def get_children (menus : Store) (fuel : Nat) : List Menu → Except RunError (List Branch)
  | [] => .ok []
  | p :: ps =>
    match branch_of menus fuel p with
    | .error e => .error e
    | .ok b =>
      match get_children menus fuel ps with
      | .error e => .error e
      | .ok bs => .ok (b :: bs)

/-- A branch record after `validate_parents` has popped the `max_depth`
key: only `root_id` and `children` remain. -/
structure ReportedBranch where
  root_id : Nat
  children : List Nat
deriving Repr, DecidableEq

/-- The effect of `branch.pop('max_depth')` on the record that is then
appended to the output: the same `root_id` and `children`, no depth. -/
def strip_depth (b : Branch) : ReportedBranch :=
  ⟨b.root_id, b.children⟩

/-- The output of `validate_parents`: the dict with the `valid_menus` and
`invalid_menus` lists. -/
structure Classification where
  valid_menus : List ReportedBranch
  invalid_menus : List ReportedBranch
deriving Repr, DecidableEq

/-- `validate_parents(branches)`: each branch goes to `valid_menus` iff
`max_depth <= 4 and root_id not in children` (after `max_depth` has been
popped from the record), otherwise to `invalid_menus`.  The Python loop
appends in input order; the equivalent head recursion reproduces the same
ordered partition. -/
def validate_parents : List Branch → Classification
  | [] => ⟨[], []⟩
  | b :: bs =>
    let rest := validate_parents bs
    if b.max_depth ≤ 4 ∧ ¬ b.root_id ∈ b.children then
      ⟨strip_depth b :: rest.valid_menus, rest.invalid_menus⟩
    else
      ⟨rest.valid_menus, strip_depth b :: rest.invalid_menus⟩

/-- Reachability along child references, starting from a list of seed ids
(the root's direct children): either a seed itself, or a child of an
already reachable node that resolves in the store.  This is the spec-side
reachability notion used to state the cycle-test and dangling-reference
claims. -/
inductive Reaches (menus : Store) (srcs : List Nat) : Nat → Prop
  | base {y : Nat} : y ∈ srcs → Reaches menus srcs y
  | step {x y : Nat} {m : Menu} : Reaches menus srcs x → lookupMenu menus x = some m →
      y ∈ m.child_ids → Reaches menus srcs y

mutual
/-- Modelled from the spec's recursive depth characterisation (§4.2, step
2): depth of a childless node is 0; a child list directly containing the
root contributes 1; otherwise an internal node is 1 + max over its
children's subtree depths (each child resolved in the store). -/
inductive SpecDepth (menus : Store) (root : Nat) : List Nat → Nat → Prop
  | leaf : SpecDepth menus root [] 0
  | selfCycle {children : List Nat} : root ∈ children → SpecDepth menus root children 1
  | node {children ds : List Nat} :
      children ≠ [] → ¬ root ∈ children →
      SpecDepthChildren menus root children ds →
      SpecDepth menus root children (ds.foldl Nat.max 0 + 1)

/-- Pointwise pairing of a child list with subtree depths: each child
resolves in the store and its child list has the paired subtree depth. -/
inductive SpecDepthChildren (menus : Store) (root : Nat) : List Nat → List Nat → Prop
  | nil : SpecDepthChildren menus root [] []
  | cons {c d : Nat} {cs ds : List Nat} {m : Menu} :
      lookupMenu menus c = some m → SpecDepth menus root m.child_ids d →
      SpecDepthChildren menus root cs ds →
      SpecDepthChildren menus root (c :: cs) (d :: ds)
end

/-! ### Basic lookup facts -/

theorem lookup_pair {menus : Store} {i : Nat} {m : Menu}
    (h : lookupMenu menus i = some m) : (i, m) ∈ menus := by
  unfold lookupMenu at h
  cases hf : menus.find? (fun p => p.1 == i) with
  | none => rw [hf] at h; exact Option.noConfusion h
  | some p =>
    rw [hf] at h
    have hm : p.2 = m := Option.some.inj h
    have hp : p ∈ menus := List.mem_of_find?_eq_some hf
    have hi : p.1 = i := by
      have := List.find?_some hf
      simpa using this
    have : p = (i, m) := by
      cases p
      simp only at hm hi
      rw [hm, hi]
    rw [← this]
    exact hp

/-- All the ids appearing in some menu's child list. -/
def childUniverse (menus : Store) : List Nat :=
  (menus.map (fun p => p.2.child_ids)).flatten

/-- An upper bound on the length of any menu's child list. -/
def pushBound (menus : Store) : Nat :=
  (menus.map (fun p => p.2.child_ids.length)).foldr Nat.max 0

theorem le_foldr_max {a : Nat} : ∀ {l : List Nat}, a ∈ l → a ≤ l.foldr Nat.max 0 := by
  intro l
  induction l with
  | nil => intro h; exact absurd h (List.not_mem_nil a)
  | cons x xs ih =>
    intro h
    rcases List.mem_cons.mp h with rfl | h
    · exact Nat.le_max_left _ _
    · exact le_trans (ih h) (Nat.le_max_right _ _)

theorem children_subset_universe {menus : Store} {i : Nat} {m : Menu}
    (h : lookupMenu menus i = some m) : ∀ c ∈ m.child_ids, c ∈ childUniverse menus := by
  intro c hc
  unfold childUniverse
  rw [List.mem_flatten]
  exact ⟨m.child_ids, List.mem_map.mpr ⟨(i, m), lookup_pair h, rfl⟩, hc⟩

theorem children_length_le {menus : Store} {i : Nat} {m : Menu}
    (h : lookupMenu menus i = some m) : m.child_ids.length ≤ pushBound menus :=
  le_foldr_max (List.mem_map.mpr ⟨(i, m), lookup_pair h, rfl⟩)

/-! ### Invariants of the depth-first visit loop -/

theorem visit_loop_subset (menus : Store) :
    ∀ (fuel : Nat) (stack visited out : List Nat),
    visit_loop menus fuel stack visited = .ok out →
    (∀ x ∈ visited, x ∈ out) ∧ (∀ x ∈ stack, x ∈ out) := by
  intro fuel
  induction fuel with
  | zero => intro stack visited out h; exact absurd h (by simp [visit_loop])
  | succ f ih =>
    intro stack visited out h
    match stack with
    | [] =>
      rw [visit_loop] at h
      have : visited = out := Except.ok.inj h
      subst this
      exact ⟨fun x hx => hx, fun x hx => absurd hx (List.not_mem_nil x)⟩
    | node :: stack' =>
      rw [visit_loop] at h
      by_cases hv : node ∈ visited
      · rw [if_pos hv] at h
        obtain ⟨h1, h2⟩ := ih stack' visited out h
        refine ⟨h1, fun x hx => ?_⟩
        rcases List.mem_cons.mp hx with rfl | hx
        · exact h1 _ hv
        · exact h2 _ hx
      · rw [if_neg hv] at h
        cases hl : lookupMenu menus node with
        | none => rw [hl] at h; exact absurd h (by simp)
        | some m =>
          rw [hl] at h
          obtain ⟨h1, h2⟩ := ih _ _ _ h
          refine ⟨fun x hx => h1 _ (List.mem_cons_of_mem _ hx), fun x hx => ?_⟩
          rcases List.mem_cons.mp hx with rfl | hx
          · exact h1 _ (List.mem_cons_self _ _)
          · exact h2 _ (List.mem_append_right _ hx)

theorem visit_loop_sound (menus : Store) (R : Nat → Prop)
    (hstep : ∀ x m c, R x → lookupMenu menus x = some m → c ∈ m.child_ids → R c) :
    ∀ (fuel : Nat) (stack visited out : List Nat),
    (∀ x ∈ stack, R x) → (∀ x ∈ visited, R x) →
    visit_loop menus fuel stack visited = .ok out →
    ∀ x ∈ out, R x := by
  intro fuel
  induction fuel with
  | zero => intro stack visited out _ _ h; exact absurd h (by simp [visit_loop])
  | succ f ih =>
    intro stack visited out hs hvd h
    match stack with
    | [] =>
      rw [visit_loop] at h
      have : visited = out := Except.ok.inj h
      subst this
      exact hvd
    | node :: stack' =>
      rw [visit_loop] at h
      by_cases hv : node ∈ visited
      · rw [if_pos hv] at h
        exact ih stack' visited out (fun x hx => hs x (List.mem_cons_of_mem _ hx)) hvd h
      · rw [if_neg hv] at h
        cases hl : lookupMenu menus node with
        | none => rw [hl] at h; exact absurd h (by simp)
        | some m =>
          rw [hl] at h
          refine ih _ _ _ ?_ ?_ h
          · intro x hx
            rcases List.mem_append.mp hx with hx | hx
            · exact hstep node m x (hs node (List.mem_cons_self _ _)) hl
                (List.mem_filter.mp (List.mem_reverse.mp hx)).1
            · exact hs x (List.mem_cons_of_mem _ hx)
          · intro x hx
            rcases List.mem_cons.mp hx with rfl | hx
            · exact hs x (List.mem_cons_self _ _)
            · exact hvd x hx

theorem visit_loop_closed (menus : Store) :
    ∀ (fuel : Nat) (stack visited out : List Nat),
    (∀ v ∈ visited, ∀ m, lookupMenu menus v = some m →
      ∀ c ∈ m.child_ids, c ∈ visited ∨ c ∈ stack) →
    visit_loop menus fuel stack visited = .ok out →
    ∀ v ∈ out, ∀ m, lookupMenu menus v = some m → ∀ c ∈ m.child_ids, c ∈ out := by
  intro fuel
  induction fuel with
  | zero => intro stack visited out _ h; exact absurd h (by simp [visit_loop])
  | succ f ih =>
    intro stack visited out hcl h
    match stack with
    | [] =>
      rw [visit_loop] at h
      have : visited = out := Except.ok.inj h
      subst this
      intro v hv m hm c hc
      rcases hcl v hv m hm c hc with h' | h'
      · exact h'
      · exact absurd h' (List.not_mem_nil c)
    | node :: stack' =>
      rw [visit_loop] at h
      by_cases hv : node ∈ visited
      · rw [if_pos hv] at h
        refine ih stack' visited out ?_ h
        intro v hvv m hm c hc
        rcases hcl v hvv m hm c hc with h' | h'
        · exact Or.inl h'
        · rcases List.mem_cons.mp h' with rfl | h'
          · exact Or.inl hv
          · exact Or.inr h'
      · rw [if_neg hv] at h
        cases hl : lookupMenu menus node with
        | none => rw [hl] at h; exact absurd h (by simp)
        | some m =>
          rw [hl] at h
          refine ih _ _ _ ?_ h
          intro v hvv m' hm' c hc
          rcases List.mem_cons.mp hvv with rfl | hvv
          · have hmm : m' = m := by
              rw [hl] at hm'
              exact (Option.some.inj hm').symm
            subst hmm
            by_cases hcvis : c ∈ v :: visited
            · exact Or.inl hcvis
            · refine Or.inr (List.mem_append_left _ ?_)
              rw [List.mem_reverse, List.mem_filter]
              exact ⟨hc, decide_eq_true hcvis⟩
          · rcases hcl v hvv m' hm' c hc with h' | h'
            · exact Or.inl (List.mem_cons_of_mem _ h')
            · rcases List.mem_cons.mp h' with rfl | h'
              · exact Or.inl (List.mem_cons_self _ _)
              · exact Or.inr (List.mem_append_right _ h')

theorem visit_loop_mem_store (menus : Store) :
    ∀ (fuel : Nat) (stack visited out : List Nat),
    visit_loop menus fuel stack visited = .ok out →
    ∀ v ∈ out, v ∈ visited ∨ ∃ m, lookupMenu menus v = some m := by
  intro fuel
  induction fuel with
  | zero => intro stack visited out h; exact absurd h (by simp [visit_loop])
  | succ f ih =>
    intro stack visited out h
    match stack with
    | [] =>
      rw [visit_loop] at h
      have : visited = out := Except.ok.inj h
      subst this
      exact fun v hv => Or.inl hv
    | node :: stack' =>
      rw [visit_loop] at h
      by_cases hv : node ∈ visited
      · rw [if_pos hv] at h
        exact ih stack' visited out h
      · rw [if_neg hv] at h
        cases hl : lookupMenu menus node with
        | none => rw [hl] at h; exact absurd h (by simp)
        | some m =>
          rw [hl] at h
          intro v hvout
          rcases ih _ _ _ h v hvout with h' | h'
          · rcases List.mem_cons.mp h' with rfl | h'
            · exact Or.inr ⟨m, hl⟩
            · exact Or.inl h'
          · exact Or.inr h'

theorem visit_loop_unknown (menus : Store) :
    ∀ (fuel : Nat) (stack visited : List Nat) (z : Nat),
    visit_loop menus fuel stack visited = .error (.unknownNode z) →
    lookupMenu menus z = none := by
  intro fuel
  induction fuel with
  | zero => intro stack visited z h; exact absurd h (by simp [visit_loop])
  | succ f ih =>
    intro stack visited z h
    match stack with
    | [] => rw [visit_loop] at h; exact absurd h (by simp)
    | node :: stack' =>
      rw [visit_loop] at h
      by_cases hv : node ∈ visited
      · rw [if_pos hv] at h
        exact ih stack' visited z h
      · rw [if_neg hv] at h
        cases hl : lookupMenu menus node with
        | none =>
          rw [hl] at h
          have : node = z := RunError.unknownNode.inj (Except.error.inj h)
          rw [← this]
          exact hl
        | some m =>
          rw [hl] at h
          exact ih _ _ z h

theorem visit_loop_mono (menus : Store) :
    ∀ (f : Nat) (stack visited out : List Nat) (g : Nat),
    visit_loop menus f stack visited = .ok out → f ≤ g →
    visit_loop menus g stack visited = .ok out := by
  intro f
  induction f with
  | zero => intro stack visited out g h; exact absurd h (by simp [visit_loop])
  | succ f ih =>
    intro stack visited out g h hfg
    match g with
    | 0 => exact absurd hfg (by omega)
    | g + 1 =>
      match stack with
      | [] => rw [visit_loop] at h ⊢; exact h
      | node :: stack' =>
        rw [visit_loop] at h ⊢
        by_cases hv : node ∈ visited
        · rw [if_pos hv] at h ⊢
          exact ih stack' visited out g h (by omega)
        · rw [if_neg hv] at h ⊢
          cases hl : lookupMenu menus node with
          | none => rw [hl] at h; exact absurd h (by simp)
          | some m =>
            rw [hl] at h
            exact ih _ _ _ g h (by omega)

/-! ### Termination of the visit loop (the visited-set discipline) -/

theorem visit_loop_no_fuelout (menus : Store) (univ : List Nat)
    (huniv : ∀ i m, lookupMenu menus i = some m → ∀ c ∈ m.child_ids, c ∈ univ) :
    ∀ (fuel : Nat) (stack visited : List Nat),
    (∀ x ∈ stack, x ∈ univ) →
    stack.length + (pushBound menus + 1) * (univ.toFinset \ visited.toFinset).card < fuel →
    visit_loop menus fuel stack visited ≠ .error .outOfFuel := by
  intro fuel
  induction fuel with
  | zero => intro stack visited _ hm; exact absurd hm (by omega)
  | succ f ih =>
    intro stack visited hs hm
    match stack with
    | [] => simp [visit_loop]
    | node :: stack' =>
      rw [visit_loop]
      by_cases hv : node ∈ visited
      · rw [if_pos hv]
        refine ih stack' visited (fun x hx => hs x (List.mem_cons_of_mem _ hx)) ?_
        have : (node :: stack').length = stack'.length + 1 := rfl
        omega
      · rw [if_neg hv]
        cases hl : lookupMenu menus node with
        | none => simp
        | some m =>
          have hnu : node ∈ univ.toFinset \ visited.toFinset := by
            rw [Finset.mem_sdiff, List.mem_toFinset, List.mem_toFinset]
            exact ⟨hs node (List.mem_cons_self _ _), hv⟩
          have hset : univ.toFinset \ (node :: visited).toFinset
              = (univ.toFinset \ visited.toFinset).erase node := by
            ext a
            rw [List.toFinset_cons]
            simp only [Finset.mem_sdiff, Finset.mem_erase, Finset.mem_insert]
            tauto
          have hcard : (univ.toFinset \ (node :: visited).toFinset).card
              = (univ.toFinset \ visited.toFinset).card - 1 := by
            rw [hset]
            exact Finset.card_erase_of_mem hnu
          have hpos : 1 ≤ (univ.toFinset \ visited.toFinset).card :=
            Finset.card_pos.mpr ⟨node, hnu⟩
          have hlen : ((m.child_ids.filter (fun c => decide (¬ c ∈ node :: visited))).reverse
              ++ stack').length ≤ pushBound menus + stack'.length := by
            rw [List.length_append, List.length_reverse]
            have h1 : (m.child_ids.filter (fun c => decide (¬ c ∈ node :: visited))).length
                ≤ m.child_ids.length := List.length_filter_le _ _
            have h2 := children_length_le hl
            omega
          have hmul : (pushBound menus + 1) * ((univ.toFinset \ visited.toFinset).card - 1)
              + (pushBound menus + 1)
              = (pushBound menus + 1) * (univ.toFinset \ visited.toFinset).card := by
            rw [← Nat.mul_succ]
            congr 1
            omega
          refine ih _ (node :: visited) ?_ ?_
          · intro x hx
            rcases List.mem_append.mp hx with hx | hx
            · exact huniv node m hl x (List.mem_filter.mp (List.mem_reverse.mp hx)).1
            · exact hs x (List.mem_cons_of_mem _ hx)
          · rw [hcard]
            have hm' : stack'.length + 1
                + (pushBound menus + 1) * (univ.toFinset \ visited.toFinset).card < f + 1 := by
              have : (node :: stack').length = stack'.length + 1 := rfl
              omega
            omega

theorem visit_loop_halts (menus : Store) (stack visited : List Nat) :
    ∃ fuel, visit_loop menus fuel stack visited ≠ .error .outOfFuel := by
  refine ⟨stack.length + (pushBound menus + 1)
      * (((stack ++ childUniverse menus).toFinset \ visited.toFinset).card) + 1, ?_⟩
  refine visit_loop_no_fuelout menus (stack ++ childUniverse menus) ?_ _ stack visited ?_ ?_
  · intro i m h c hc
    exact List.mem_append_right _ (children_subset_universe h c hc)
  · intro x hx
    exact List.mem_append_left _ hx
  · omega

/-! ### Properties of the recursive depth computation -/

theorem child_depths_mono_of (menus : Store) (dep dep' : List Nat → Except RunError Nat)
    (hmono : ∀ cc n, dep cc = .ok n → dep' cc = .ok n) :
    ∀ (children ds : List Nat), child_depths menus dep children = .ok ds →
    child_depths menus dep' children = .ok ds := by
  intro children
  induction children with
  | nil => intro ds h; rw [child_depths] at h ⊢; exact h
  | cons c cs ih =>
    intro ds h
    rw [child_depths] at h ⊢
    cases hl : lookupMenu menus c with
    | none => rw [hl] at h; exact absurd h (by simp)
    | some m =>
      rw [hl] at h
      dsimp only at h ⊢
      cases hd : dep m.child_ids with
      | error e => rw [hd] at h; exact absurd h (by simp)
      | ok d =>
        rw [hd] at h
        rw [hmono _ _ hd]
        cases hds : child_depths menus dep cs with
        | error e => rw [hds] at h; exact absurd h (by simp)
        | ok ds' =>
          rw [hds] at h
          rw [ih _ hds]
          exact h

theorem get_max_depth_mono (menus : Store) :
    ∀ (f : Nat) (parent : Nat) (children : List Nat) (n : Nat) (g : Nat),
    get_max_depth menus f parent children = .ok n → f ≤ g →
    get_max_depth menus g parent children = .ok n := by
  intro f
  induction f with
  | zero => intro parent children n g h; exact absurd h (by simp [get_max_depth])
  | succ f ih =>
    intro parent children n g h hfg
    match g with
    | 0 => exact absurd hfg (by omega)
    | g + 1 =>
      rw [get_max_depth] at h ⊢
      by_cases hnil : children = []
      · rw [if_pos hnil] at h ⊢; exact h
      · rw [if_neg hnil] at h ⊢
        by_cases hp : parent ∈ children
        · rw [if_pos hp] at h ⊢; exact h
        · rw [if_neg hp] at h ⊢
          cases hds : child_depths menus (fun cc => get_max_depth menus f parent cc) children with
          | error e => rw [hds] at h; exact absurd h (by simp)
          | ok ds =>
            rw [hds] at h
            rw [child_depths_mono_of menus _ _
              (fun cc n' h' => ih parent cc n' g h' (by omega)) children ds hds]
            exact h

theorem child_depths_spec_of (menus : Store) (root : Nat)
    (dep : List Nat → Except RunError Nat)
    (hspec : ∀ cc n, dep cc = .ok n → SpecDepth menus root cc n) :
    ∀ (children ds : List Nat), child_depths menus dep children = .ok ds →
    SpecDepthChildren menus root children ds := by
  intro children
  induction children with
  | nil =>
    intro ds h
    rw [child_depths] at h
    have : [] = ds := Except.ok.inj h
    rw [← this]
    exact SpecDepthChildren.nil
  | cons c cs ih =>
    intro ds h
    rw [child_depths] at h
    cases hl : lookupMenu menus c with
    | none => rw [hl] at h; exact absurd h (by simp)
    | some m =>
      rw [hl] at h
      dsimp only at h
      cases hd : dep m.child_ids with
      | error e => rw [hd] at h; exact absurd h (by simp)
      | ok d =>
        rw [hd] at h
        cases hds : child_depths menus dep cs with
        | error e => rw [hds] at h; exact absurd h (by simp)
        | ok ds' =>
          rw [hds] at h
          have : d :: ds' = ds := Except.ok.inj h
          rw [← this]
          exact SpecDepthChildren.cons hl (hspec _ _ hd) (ih _ hds)

theorem get_max_depth_spec (menus : Store) :
    ∀ (f : Nat) (root : Nat) (children : List Nat) (n : Nat),
    get_max_depth menus f root children = .ok n → SpecDepth menus root children n := by
  intro f
  induction f with
  | zero => intro root children n h; exact absurd h (by simp [get_max_depth])
  | succ f ih =>
    intro root children n h
    rw [get_max_depth] at h
    by_cases hnil : children = []
    · rw [if_pos hnil] at h
      have : 0 = n := Except.ok.inj h
      rw [← this, hnil]
      exact SpecDepth.leaf
    · rw [if_neg hnil] at h
      by_cases hp : root ∈ children
      · rw [if_pos hp] at h
        have : 1 = n := Except.ok.inj h
        rw [← this]
        exact SpecDepth.selfCycle hp
      · rw [if_neg hp] at h
        cases hds : child_depths menus (fun cc => get_max_depth menus f root cc) children with
        | error e => rw [hds] at h; exact absurd h (by simp)
        | ok ds =>
          rw [hds] at h
          have : ds.foldl Nat.max 0 + 1 = n := Except.ok.inj h
          rw [← this]
          refine SpecDepth.node hnil hp
            (child_depths_spec_of menus root _ ?_ children ds hds)
          intro cc n' h'
          exact ih root cc n' h'

/-! ### Branch computation and classifier lemmas -/

theorem branch_of_mono (menus : Store) (f g : Nat) (parent : Menu) (b : Branch)
    (h : branch_of menus f parent = .ok b) (hfg : f ≤ g) :
    branch_of menus g parent = .ok b := by
  rw [branch_of] at h ⊢
  cases hv : visit_loop menus f parent.child_ids.reverse [] with
  | error e => rw [hv] at h; exact absurd h (by simp)
  | ok vis =>
    rw [hv] at h
    dsimp only at h
    rw [visit_loop_mono menus f _ _ _ g hv hfg]
    dsimp only
    cases hd : get_max_depth menus f parent.id parent.child_ids with
    | error e => rw [hd] at h; exact absurd h (by simp)
    | ok d =>
      rw [hd] at h
      rw [get_max_depth_mono menus f _ _ _ g hd hfg]
      exact h

theorem get_children_forall (menus : Store) (f g : Nat) :
    ∀ (parents : List Menu) (bs : List Branch),
    get_children menus f parents = .ok bs → f ≤ g →
    get_children menus g parents = .ok bs ∧
    List.Forall₂ (fun p b => branch_of menus g p = .ok b) parents bs := by
  intro parents
  induction parents with
  | nil =>
    intro bs h _
    rw [get_children] at h ⊢
    have : [] = bs := Except.ok.inj h
    rw [← this]
    exact ⟨rfl, List.Forall₂.nil⟩
  | cons p ps ih =>
    intro bs h hfg
    rw [get_children] at h ⊢
    cases hb : branch_of menus f p with
    | error e => rw [hb] at h; exact absurd h (by simp)
    | ok b =>
      rw [hb] at h
      dsimp only at h
      have hbg := branch_of_mono menus f g p b hb hfg
      rw [hbg]
      dsimp only
      cases hbs : get_children menus f ps with
      | error e => rw [hbs] at h; exact absurd h (by simp)
      | ok bs' =>
        rw [hbs] at h
        obtain ⟨hg, hfa⟩ := ih bs' hbs hfg
        rw [hg]
        have : b :: bs' = bs := Except.ok.inj h
        rw [← this]
        exact ⟨rfl, List.Forall₂.cons hbg hfa⟩

/-- The validity test of `validate_parents`, as a Boolean predicate on a
branch record: `max_depth <= 4 and root_id not in children`. -/
def validBranchP (b : Branch) : Bool :=
  decide (b.max_depth ≤ 4 ∧ ¬ b.root_id ∈ b.children)

theorem validate_parents_eq (branches : List Branch) :
    validate_parents branches =
      ⟨(branches.filter validBranchP).map strip_depth,
       (branches.filter (fun b => ! validBranchP b)).map strip_depth⟩ := by
  induction branches with
  | nil => rfl
  | cons b bs ih =>
    rw [validate_parents]
    by_cases hc : b.max_depth ≤ 4 ∧ ¬ b.root_id ∈ b.children
    · rw [if_pos hc]
      have hb : validBranchP b = true := decide_eq_true hc
      rw [List.filter_cons, List.filter_cons]
      simp [hb, ih]
    · rw [if_neg hc]
      have hb : validBranchP b = false := decide_eq_false hc
      rw [List.filter_cons, List.filter_cons]
      simp [hb, ih]

/-! ### Concrete stores used for the edge-case claims -/

/-- A 3-node store with a cycle among descendants that avoids the root:
`1 → 2 → 3 → 2`. -/
def cycMenus : Store :=
  [(1, ⟨1, none, [2]⟩), (2, ⟨2, some 1, [3]⟩), (3, ⟨3, some 2, [2]⟩)]

/-- The root of `cycMenus`. -/
def cycRoot : Menu := ⟨1, none, [2]⟩

/-- Linear chain of 5 nodes: `1 → 2 → 3 → 4 → 5`. -/
def chain5 : Store :=
  [(1, ⟨1, none, [2]⟩), (2, ⟨2, some 1, [3]⟩), (3, ⟨3, some 2, [4]⟩),
   (4, ⟨4, some 3, [5]⟩), (5, ⟨5, some 4, []⟩)]

/-- Linear chain of 6 nodes: `1 → 2 → 3 → 4 → 5 → 6`. -/
def chain6 : Store :=
  [(1, ⟨1, none, [2]⟩), (2, ⟨2, some 1, [3]⟩), (3, ⟨3, some 2, [4]⟩),
   (4, ⟨4, some 3, [5]⟩), (5, ⟨5, some 4, [6]⟩), (6, ⟨6, some 5, []⟩)]

/-- The diamond graph: `1 → {2, 3}`, `2 → {4}`, `3 → {4}`, `4 → {}`. -/
def diamondMenus : Store :=
  [(1, ⟨1, none, [2, 3]⟩), (2, ⟨2, some 1, [4]⟩), (3, ⟨3, some 1, [4]⟩),
   (4, ⟨4, some 2, []⟩)]

/-- A store whose root lists itself as a child: `1 → {1, 2}`, `2 → {3}`,
`3 → {}`. -/
def selfMenus : Store :=
  [(1, ⟨1, none, [1, 2]⟩), (2, ⟨2, some 1, [3]⟩), (3, ⟨3, some 2, []⟩)]

/-- A store with a dangling child reference: `1 → 2 → 3` with `3` absent. -/
def danglingMenus : Store :=
  [(1, ⟨1, none, [2]⟩), (2, ⟨2, some 1, [3]⟩)]

/-- A 2-node cycle through the root: `1 → 2 → 1`. -/
def rootCycMenus : Store :=
  [(1, ⟨1, none, [2]⟩), (2, ⟨2, some 1, [1]⟩)]

/-- On `cycMenus`, the depth recursion runs out of any finite amount of
fuel on the child lists `[2]` and `[3]`: the cycle `2 → 3 → 2` never
passes through the root `1`, so the `parent in children` test never
fires and there is no visited set to stop the recursion. -/
theorem cyc_depth_fuelout :
    ∀ f, get_max_depth cycMenus f 1 [2] = .error .outOfFuel ∧
         get_max_depth cycMenus f 1 [3] = .error .outOfFuel := by
  intro f
  induction f with
  | zero => exact ⟨rfl, rfl⟩
  | succ f ih =>
    constructor
    · rw [get_max_depth]
      rw [if_neg (by simp : ¬ ([2] : List Nat) = [])]
      rw [if_neg (by simp : ¬ 1 ∈ ([2] : List Nat))]
      have h2 : child_depths cycMenus (fun cc => get_max_depth cycMenus f 1 cc) [2]
          = .error .outOfFuel := by
        rw [child_depths]
        have hl : lookupMenu cycMenus 2 = some ⟨2, some 1, [3]⟩ := rfl
        rw [hl]
        dsimp only
        rw [ih.2]
      rw [h2]
    · rw [get_max_depth]
      rw [if_neg (by simp : ¬ ([3] : List Nat) = [])]
      rw [if_neg (by simp : ¬ 1 ∈ ([3] : List Nat))]
      have h3 : child_depths cycMenus (fun cc => get_max_depth cycMenus f 1 cc) [3]
          = .error .outOfFuel := by
        rw [child_depths]
        have hl : lookupMenu cycMenus 3 = some ⟨3, some 2, [2]⟩ := rfl
        rw [hl]
        dsimp only
        rw [ih.1]
      rw [h3]

/-- Any set that contains the seeds and is closed under resolving child
references contains everything reachable from the seeds. -/
theorem reach_mem_of_closed {menus : Store} {srcs out : List Nat}
    (hsrc : ∀ x ∈ srcs, x ∈ out)
    (hclosed : ∀ v ∈ out, ∀ m, lookupMenu menus v = some m → ∀ c ∈ m.child_ids, c ∈ out) :
    ∀ {y : Nat}, Reaches menus srcs y → y ∈ out := by
  intro y h
  induction h with
  | base hy => exact hsrc _ hy
  | step hx hl hc ih => exact hclosed _ ih _ hl _ hc

/-! ### Claim theorems -/

/-- Claim C1 (evidence of the code bug): on the store `1 → 2 → 3 → 2`,
whose only cycle lies among descendants and does not pass through the
root, classifying the root never finishes: for every fuel bound the
branch computation runs out of fuel, because `_get_max_depth` carries no
visited set — only the reachable-set loop in `get_children` does. -/
theorem depth_cycle_divergence :
    ∀ fuel, branch_of cycMenus fuel cycRoot = .error .outOfFuel := by
  intro fuel
  show branch_of cycMenus fuel ⟨1, none, [2]⟩ = .error .outOfFuel
  by_cases hf : 5 ≤ fuel
  · rw [branch_of]
    dsimp only
    have hv : visit_loop cycMenus fuel (([2] : List Nat).reverse) [] = .ok [3, 2] :=
      visit_loop_mono cycMenus 5 _ [] [3, 2] fuel rfl hf
    rw [hv]
    dsimp only
    rw [(cyc_depth_fuelout fuel).1]
  · have : fuel < 5 := by omega
    interval_cases fuel <;> rfl

/-- Claim C2: whenever the recursive depth computation terminates with a
value, that value satisfies the spec's recursive depth characterisation
(`SpecDepth`): 0 for a childless node, 1 for a branch whose node's child
list directly contains the root, and 1 + max over the children's subtree
depths otherwise. -/
theorem depth_meets_spec (menus : Store) (fuel root : Nat) (children : List Nat) (n : Nat)
    (h : get_max_depth menus fuel root children = .ok n) :
    SpecDepth menus root children n :=
  get_max_depth_spec menus fuel root children n h

/-- Witness for C2 on a concrete chain: the computed depth 4 of `chain5`
satisfies the spec characterisation. -/
theorem depth_meets_spec_witness : SpecDepth chain5 1 [2] 4 :=
  depth_meets_spec chain5 20 1 [2] 4 rfl

/-- Claim C3: `validate_parents` puts (the depth-stripped record of) each
input branch into `valid_menus` iff `max_depth ≤ 4` AND the root id is
not in its own reachable set, and into `invalid_menus` otherwise: the
two output lists are exactly the ordered partition of the input by the
conjunction of the two independently stated conditions. -/
theorem validate_partition (branches : List Branch) :
    (validate_parents branches).valid_menus =
      (branches.filter
        (fun b => decide (b.max_depth ≤ 4 ∧ ¬ b.root_id ∈ b.children))).map strip_depth ∧
    (validate_parents branches).invalid_menus =
      (branches.filter
        (fun b => ! decide (b.max_depth ≤ 4 ∧ ¬ b.root_id ∈ b.children))).map strip_depth := by
  rw [validate_parents_eq]
  exact ⟨rfl, rfl⟩

/-- Claim C4: if some id reachable from a root's children is absent from
the store, the branch computation for that root can never succeed, and
the traversal halts with an explicit `unknownNode` error for a dangling
id — the dangling reference is never silently treated as a leaf. -/
theorem dangling_reference_fails (menus : Store) (parent : Menu) (y : Nat)
    (hreach : Reaches menus parent.child_ids y)
    (hy : lookupMenu menus y = none) :
    (∀ fuel b, branch_of menus fuel parent ≠ .ok b) ∧
    (∃ fuel z, visit_loop menus fuel parent.child_ids.reverse [] = .error (.unknownNode z) ∧
      lookupMenu menus z = none) := by
  have hnotok : ∀ (fuel : Nat) (out : List Nat),
      visit_loop menus fuel parent.child_ids.reverse [] ≠ .ok out := by
    intro fuel out hok
    have hmem : y ∈ out := by
      refine reach_mem_of_closed ?_ ?_ hreach
      · intro x hx
        exact (visit_loop_subset menus fuel _ [] out hok).2 x (List.mem_reverse.mpr hx)
      · exact visit_loop_closed menus fuel _ [] out
          (fun v hv => absurd hv (List.not_mem_nil v)) hok
    rcases visit_loop_mem_store menus fuel _ [] out hok y hmem with h' | ⟨m, hm⟩
    · exact absurd h' (List.not_mem_nil y)
    · rw [hy] at hm
      exact Option.noConfusion hm
  constructor
  · intro fuel b hb
    rw [branch_of] at hb
    cases hv : visit_loop menus fuel parent.child_ids.reverse [] with
    | error e => rw [hv] at hb; exact absurd hb (by simp)
    | ok out => exact hnotok fuel out hv
  · obtain ⟨fuel, hfuel⟩ := visit_loop_halts menus parent.child_ids.reverse []
    cases hv : visit_loop menus fuel parent.child_ids.reverse [] with
    | ok out => exact absurd hv (hnotok fuel out)
    | error e =>
      cases e with
      | outOfFuel => exact absurd hv hfuel
      | unknownNode z => exact ⟨fuel, z, hv, visit_loop_unknown menus fuel _ _ z hv⟩

/-- Witness for C4 on the concrete dangling store `1 → 2 → 3` (`3`
absent): classification of root 1 can never succeed and the traversal
reports `unknownNode`. -/
theorem dangling_reference_fails_witness :
    (∀ fuel b, branch_of danglingMenus fuel ⟨1, none, [2]⟩ ≠ .ok b) ∧
    (∃ fuel z, visit_loop danglingMenus fuel
        (Menu.child_ids ⟨1, none, [2]⟩).reverse [] = .error (.unknownNode z) ∧
      lookupMenu danglingMenus z = none) :=
  dangling_reference_fails danglingMenus ⟨1, none, [2]⟩ 3
    (@Reaches.step danglingMenus (Menu.child_ids ⟨1, none, [2]⟩) 2 3 ⟨2, some 1, [3]⟩
      (Reaches.base (by decide)) rfl (by decide)) rfl

/-- Claim C5: a root whose own child list contains its id gets computed
depth exactly 1 — whatever else the store contains — its id is in its
reachable set, and `validate_parents` classifies the branch as invalid. -/
theorem self_cycle_branch (menus : Store) (fuel : Nat) (parent : Menu) (b : Branch)
    (hself : parent.id ∈ parent.child_ids)
    (hb : branch_of menus fuel parent = .ok b) :
    b.max_depth = 1 ∧ b.root_id ∈ b.children ∧
    validate_parents [b] = ⟨[], [strip_depth b]⟩ := by
  rw [branch_of] at hb
  cases hv : visit_loop menus fuel parent.child_ids.reverse [] with
  | error e => rw [hv] at hb; exact absurd hb (by simp)
  | ok vis =>
    rw [hv] at hb
    dsimp only at hb
    cases hd : get_max_depth menus fuel parent.id parent.child_ids with
    | error e => rw [hd] at hb; exact absurd hb (by simp)
    | ok d =>
      rw [hd] at hb
      have hbval : Branch.mk parent.id vis d = b := Except.ok.inj hb
      have hd1 : d = 1 := by
        match fuel, hd with
        | fuel + 1, hd =>
          rw [get_max_depth] at hd
          rw [if_neg (List.ne_nil_of_mem hself), if_pos hself] at hd
          exact (Except.ok.inj hd).symm
      have hroot : parent.id ∈ vis :=
        (visit_loop_subset menus fuel _ [] vis hv).2 parent.id (List.mem_reverse.mpr hself)
      rw [← hbval]
      refine ⟨hd1, hroot, ?_⟩
      rw [validate_parents]
      rw [if_neg ?_]
      · rfl
      · intro hcontra
        exact hcontra.2 hroot

/-- Witness for C5 on `selfMenus` (`1 → {1, 2}`, `2 → {3}`): the branch
of root 1 has depth 1, contains itself, and is classified invalid. -/
theorem self_cycle_branch_witness :
    Branch.max_depth ⟨1, [1, 3, 2], 1⟩ = 1 ∧
    Branch.root_id ⟨1, [1, 3, 2], 1⟩ ∈ Branch.children ⟨1, [1, 3, 2], 1⟩ ∧
    validate_parents [⟨1, [1, 3, 2], 1⟩] = ⟨[], [strip_depth ⟨1, [1, 3, 2], 1⟩]⟩ :=
  self_cycle_branch selfMenus 20 ⟨1, none, [1, 2]⟩ ⟨1, [1, 3, 2], 1⟩ (by decide) rfl

/-- Claim C6: on the 5-node chain the computed depth is 4 and the branch
is classified valid; on the 6-node chain the computed depth is 5 and the
branch is classified invalid. -/
theorem chain_depth_classification :
    branch_of chain5 20 ⟨1, none, [2]⟩ = .ok ⟨1, [5, 4, 3, 2], 4⟩ ∧
    validate_parents [⟨1, [5, 4, 3, 2], 4⟩] = ⟨[⟨1, [5, 4, 3, 2]⟩], []⟩ ∧
    branch_of chain6 20 ⟨1, none, [2]⟩ = .ok ⟨1, [6, 5, 4, 3, 2], 5⟩ ∧
    validate_parents [⟨1, [6, 5, 4, 3, 2], 5⟩] = ⟨[], [⟨1, [6, 5, 4, 3, 2]⟩]⟩ :=
  ⟨rfl, rfl, rfl, rfl⟩

/-- Claim C7: on the diamond graph `1 → {2, 3}`, `2 → {4}`, `3 → {4}`,
`4 → {}`, the reachable set of the root is exactly `{2, 3, 4}` with the
shared descendant 4 recorded once, and the computed depth is 2. -/
theorem diamond_reachability :
    branch_of diamondMenus 20 ⟨1, none, [2, 3]⟩ = .ok ⟨1, [2, 4, 3], 2⟩ ∧
    ([2, 4, 3] : List Nat).Perm [2, 3, 4] ∧ ([2, 4, 3] : List Nat).count 4 = 1 :=
  ⟨rfl, by decide, by decide⟩

/-- Claim C8: the classifier is pure and per-root independent: a
successful run of `get_children` returns the same records when rerun
with any budget at least as large, and each returned record is exactly
the per-root `branch_of` of its own parent (fresh traversal state per
root, no dependence on the other parents). -/
theorem classifier_pure (menus : Store) (f g : Nat) (parents : List Menu) (bs : List Branch)
    (h : get_children menus f parents = .ok bs) (hfg : f ≤ g) :
    get_children menus g parents = .ok bs ∧
    List.Forall₂ (fun p b => branch_of menus g p = .ok b) parents bs :=
  get_children_forall menus f g parents bs h hfg

/-- Witness for C8 on `chain5` with budgets 8 and 9. -/
theorem classifier_pure_witness :
    get_children chain5 9 [⟨1, none, [2]⟩] = .ok [⟨1, [5, 4, 3, 2], 4⟩] ∧
    List.Forall₂ (fun p b => branch_of chain5 9 p = .ok b)
      [⟨1, none, [2]⟩] [⟨1, [5, 4, 3, 2], 4⟩] :=
  classifier_pure chain5 8 9 [⟨1, none, [2]⟩] [⟨1, [5, 4, 3, 2], 4⟩] rfl (by omega)

/-- Claim C9: the records reported by `validate_parents` are, as a
multiset, exactly the input branches with the `max_depth` key removed:
each reported record exposes the root id and the reachable set only. -/
theorem reported_records_strip (branches : List Branch) :
    ((validate_parents branches).valid_menus
        ++ (validate_parents branches).invalid_menus).Perm
      (branches.map strip_depth) := by
  rw [validate_parents_eq]
  dsimp only
  have h := (List.filter_append_perm validBranchP branches).map strip_depth
  rw [List.map_append] at h
  exact h

/-- Claim C10: a completed traversal's visited set contains the root's
id iff the root is reachable (via child references resolving in the
store) from its own children — the invariant that makes membership of
the root in its own reachable set a correct cycle test. -/
theorem root_membership_iff_cycle (menus : Store) (parent : Menu) (fuel : Nat)
    (out : List Nat)
    (h : visit_loop menus fuel parent.child_ids.reverse [] = .ok out) :
    parent.id ∈ out ↔ Reaches menus parent.child_ids parent.id := by
  constructor
  · intro hm
    exact visit_loop_sound menus (Reaches menus parent.child_ids)
      (fun x m c hx hl hc => Reaches.step hx hl hc) fuel _ [] out
      (fun x hx => Reaches.base (List.mem_reverse.mp hx))
      (fun x hx => absurd hx (List.not_mem_nil x)) h _ hm
  · intro hr
    refine reach_mem_of_closed ?_ ?_ hr
    · intro x hx
      exact (visit_loop_subset menus fuel _ [] out h).2 x (List.mem_reverse.mpr hx)
    · exact visit_loop_closed menus fuel _ [] out
        (fun v hv => absurd hv (List.not_mem_nil v)) h

/-- Witness for C10 on the 2-cycle `1 → 2 → 1`: the traversal visits the
root and indeed the root is reachable from its children. -/
theorem root_membership_iff_cycle_witness :
    Reaches rootCycMenus (Menu.child_ids ⟨1, none, [2]⟩) (Menu.id ⟨1, none, [2]⟩) :=
  (root_membership_iff_cycle rootCycMenus ⟨1, none, [2]⟩ 9 [1, 2] rfl).mp (by decide)

end Challenge

